import Mathlib

/-!
Shallow embedding of the massimo repository: a Maya center-of-mass
visualisation tool.  The two algorithmic parts are embedded here:

* the weighted centroid aggregation performed by
  CenterOfMassNode.compute in src/massimo/plug-ins/massimo_runtime.py, and
* the section/influence registry and its (de)serialisation in
  src/massimo/scripts/massimo/core.py.

Numeric values that are Python floats in the source are modelled as exact
rationals; arithmetic properties are settled in exact arithmetic.  Fallible
operations (Python exceptions) are modelled with Option.
-/

namespace Massimo

/-- A 3d position, as the x/y/z translation triple extracted from a Maya
matrix (massimo_runtime.py line 141). -/
abbrev V3 := ℚ × ℚ × ℚ

/-- CenterOfMassNode.lerp_float (massimo_runtime.py lines 236-252):
((b - a) * percent) + a. -/
def lerp_float (a b percent : ℚ) : ℚ :=
  (b - a) * percent + a

/-- CenterOfMassNode.lerp_vector (massimo_runtime.py lines 255-275):
componentwise lerp_float on x, y and z. -/
def lerp_vector (a b : V3) (percent : ℚ) : V3 :=
  (lerp_float a.1 b.1 percent,
   lerp_float a.2.1 b.2.1 percent,
   lerp_float a.2.2 b.2.2 percent)

/-- Stable insertion of a (mass, center) pair into a list already sorted
ascending by mass: the pair goes in front of the first entry with a strictly
larger-or-equal mass reached from the left.  Together with the foldr below
this models the ascending, stable Python sorted(key mass) of
massimo_runtime.py lines 152-156. -/
def insert_by_mass (p : ℚ × V3) : List (ℚ × V3) → List (ℚ × V3)
  | [] => [p]
  | q :: rest => if p.1 ≤ q.1 then p :: q :: rest else q :: insert_by_mass p rest

/-- The ascending stable sort by mass applied to collated_data
(massimo_runtime.py lines 152-156). -/
def sorted_by_mass (l : List (ℚ × V3)) : List (ℚ × V3) :=
  l.foldr insert_by_mass []

/-- One iteration of the centroid loop of CenterOfMassNode.compute
(massimo_runtime.py lines 162-180), carrying (running_mass,
current_location).  A current_location, once set, is a 3-element Python
list and hence always truthy, so the "if not current_location" test of the
source is exactly the none test. -/
def centroid_step (st : ℚ × Option V3) (mc : ℚ × V3) : ℚ × Option V3 :=
  let running_mass := st.1 + mc.1
  match st.2 with
  | none => (running_mass, some mc.2)
  | some current_location =>
    (running_mass, some (lerp_vector current_location mc.2 (mc.1 / running_mass)))

/-- The centroid aggregation of CenterOfMassNode.compute (massimo_runtime.py
lines 152-188): sort collated data ascending by mass, fold the lerp loop
from (0, None), and fall back to the origin when no location was produced. -/
def compute_centroid (collated_data : List (ℚ × V3)) : V3 :=
  match ((sorted_by_mass collated_data).foldl centroid_step (0, none)).2 with
  | none => (0, 0, 0)
  | some current_location => current_location

/-- Modelled from the spec, section 4.1: "Sort all (mass, center) pairs
ascending by mass. Initialize running_mass = 0, current = null. For each
pair in sorted order: running_mass += mass; if current is null, current =
center; else current = lerp(current, center, mass/running_mass). Return
current, or origin (0,0,0) if no entries."  This is the recursion of that
sentence, written for comparison against compute_centroid. -/
def spec_centroid_go (running_mass : ℚ) (current : Option V3) :
    List (ℚ × V3) → Option V3
  | [] => current
  | (mass, c) :: rest =>
    let running := running_mass + mass
    match current with
    | none => spec_centroid_go running (some c) rest
    | some cur => spec_centroid_go running (some (lerp_vector cur c (mass / running))) rest

/-- Modelled from the spec, section 4.1: the full procedure, returning the
origin when no entries produced a current point. -/
def spec_centroid (pairs : List (ℚ × V3)) : V3 :=
  match spec_centroid_go 0 none (sorted_by_mass pairs) with
  | none => (0, 0, 0)
  | some c => c

/-- Sum of the masses of a collated list. -/
def total_mass (l : List (ℚ × V3)) : ℚ :=
  (l.map Prod.fst).sum

/-- Componentwise sum of mass * center over a collated list. -/
def weighted_sum (l : List (ℚ × V3)) : V3 :=
  ((l.map (fun p => p.1 * p.2.1)).sum,
   (l.map (fun p => p.1 * p.2.2.1)).sum,
   (l.map (fun p => p.1 * p.2.2.2)).sum)

/-- The closed-form weighted mean sum(mass_i * center_i) / sum(mass_i),
as named by the spec note in section 4.1. -/
def weighted_mean (l : List (ℚ × V3)) : V3 :=
  ((weighted_sum l).1 / total_mass l,
   (weighted_sum l).2.1 / total_mass l,
   (weighted_sum l).2.2 / total_mass l)

/-- One entry of the compound input array of the CenterOfMass node:
the considerInCalculation flag, the mass, and the positions extracted from
the pointsOfBounds matrices (massimo_runtime.py lines 103-150). -/
structure ComInput where
  considerInCalculation : Bool
  mass : ℚ
  pointsOfBounds : List V3
deriving DecidableEq, Repr

/-- CenterOfMassNode.center (massimo_runtime.py lines 202-233): the origin
for an empty position list, otherwise the componentwise sum of the
positions divided by their count.  (Each position is a non-empty Python
list and therefore truthy, so the "if not result" branch only fires for
the first position, making the loop a plain componentwise sum.) -/
def center (positions : List V3) : V3 :=
  match positions with
  | [] => (0, 0, 0)
  | _ =>
    ((positions.map (fun p => p.1)).sum / (positions.length : ℚ),
     (positions.map (fun p => p.2.1)).sum / (positions.length : ℚ),
     (positions.map (fun p => p.2.2)).sum / (positions.length : ℚ))

/-- The collation loop of CenterOfMassNode.compute (massimo_runtime.py
lines 103-150): entries whose mass equals 0.0 or whose
considerInCalculation flag is off are skipped; every other entry
contributes (mass, center of its bound positions). -/
def collate (inputs : List ComInput) : List (ℚ × V3) :=
  inputs.filterMap (fun item =>
    if item.mass = 0 ∨ item.considerInCalculation = false then none
    else some (item.mass, center item.pointsOfBounds))

/-- The full input-to-output pipeline of CenterOfMassNode.compute for a
requested output plug when calculate is on: collate, then aggregate. -/
def compute_from_inputs (inputs : List ComInput) : V3 :=
  compute_centroid (collate inputs)

/-- The state of the CenterOfMass node as seen by compute when one of the
output plugs is requested: the calculate flag, the compound input array,
the three output translate values, and their clean marks. -/
structure ComputeState where
  calculate : Bool
  inputs : List ComInput
  comTranslateX : ℚ
  comTranslateY : ℚ
  comTranslateZ : ℚ
  cleanX : Bool
  cleanY : Bool
  cleanZ : Bool
deriving DecidableEq, Repr

/-- CenterOfMassNode.compute (massimo_runtime.py lines 81-198) for a
requested output plug: when calculate is off the three outputs are only
marked clean (lines 86-90); otherwise the centroid is computed, written to
the three translate outputs and the plugs are marked clean. -/
def compute (data : ComputeState) : ComputeState :=
  if data.calculate = false then
    { data with cleanX := true, cleanY := true, cleanZ := true }
  else
    let current_location := compute_from_inputs data.inputs
    { data with
      comTranslateX := current_location.1
      comTranslateY := current_location.2.1
      comTranslateZ := current_location.2.2
      cleanX := true, cleanY := true, cleanZ := true }

/-- One slot of the compound inputs multi-attribute as core.py sees it: the
sectionIdentifier string, the mass value, and the sparse pointsOfBounds
plugs, each carrying the name of the influence connected into it. -/
structure MassSection where
  sectionIdentifier : String
  mass : ℚ
  pointsOfBounds : List (ℕ × String)
deriving DecidableEq, Repr

/-- The scalar settings attributes of the node, with the defaults given to
them by CenterOfMassNode.initialize (massimo_runtime.py lines 328-366). -/
structure MassSettings where
  calculate : Bool
  drawDebuggingLines : Bool
  drawSphere : Bool
  drawVerticalLine : Bool
  sphereSize : ℚ
deriving DecidableEq, Repr

/-- A CenterOfMass node as the registry functions of core.py see it: its
name, its settings, and the sparse inputs multi-attribute.  Slot order is
the plug enumeration order (ascending logical index), and Maya logical
indices are unique. -/
structure MassNode where
  name : String
  settings : MassSettings
  inputs : List (ℕ × MassSection)
deriving DecidableEq, Repr

/-- The first slot carrying the given logical index (indices are unique in
Maya, so this is the slot with that index when it exists). -/
def findIndexed {α : Type} (l : List (ℕ × α)) (idx : ℤ) : Option (ℕ × α) :=
  l.find? (fun p => (p.1 : ℤ) == idx)

/-- Creation of a new plug at a logical index: Maya keeps multi-attribute
plugs enumerated in ascending logical index order. -/
def insertIndexed {α : Type} (l : List (ℕ × α)) (idx : ℕ) (x : α) : List (ℕ × α) :=
  match l with
  | [] => [(idx, x)]
  | p :: rest => if idx < p.1 then (idx, x) :: p :: rest else p :: insertIndexed rest idx x

/-- Setting a value on the plug with the given logical index. -/
def updateIndexed {α : Type} (l : List (ℕ × α)) (idx : ℤ) (f : α → α) : List (ℕ × α) :=
  match l with
  | [] => []
  | p :: rest => (if (p.1 : ℤ) = idx then (p.1, f p.2) else p) :: updateIndexed rest idx f

/-- core.py _get_used_section_indices (lines 105-151): the logical indices
of the in-use inputs slots.  The process-wide MassimoCache only memoises
this value between structural mutations and never changes it, so the cache
is not modelled. -/
def used_section_indices (node : MassNode) : List ℕ :=
  node.inputs.map Prod.fst

/-- Reading inputs[idx].sectionIdentifier, none when the slot is unused. -/
def sectionIdentifierAt (node : MassNode) (idx : ℤ) : Option String :=
  (findIndexed node.inputs idx).map (fun p => p.2.sectionIdentifier)

/-- The loop of core.py _get_section_idx_from_name (lines 170-178): walk
the used indices and return the first whose sectionIdentifier equals the
requested name. -/
def section_idx_scan (node : MassNode) (name : String) : List ℕ → ℤ
  | [] => -1
  | idx :: rest =>
    if sectionIdentifierAt node (idx : ℤ) = some name then (idx : ℤ)
    else section_idx_scan node name rest

/-- core.py _get_section_idx_from_name (lines 155-178): the index of the
section with the given name, or -1 when no section carries it. -/
def get_section_idx_from_name (node : MassNode) (name : String) : ℤ :=
  section_idx_scan node name (used_section_indices node)

/-- core.py _get_name_from_section_idx (lines 182-203): None for an unused
index, otherwise the sectionIdentifier of the slot. -/
def get_name_from_section_idx (node : MassNode) (section_idx : ℕ) : Option String :=
  if section_idx ∈ used_section_indices node then sectionIdentifierAt node (section_idx : ℤ)
  else none

/-- core.py get_section_names (lines 244-267): the names of the sections in
used-index order.  The lookup always succeeds for a used index, so the
filterMap keeps every entry. -/
def get_section_names (node : MassNode) : List String :=
  (used_section_indices node).filterMap (get_name_from_section_idx node)

/-- core.py get_section_weight (lines 343-374): 0 with a console message
when the name resolves to no section, otherwise the mass value of the
resolved slot.  The inner none branch is unreachable because a non-negative
scan result is always a used index. -/
def get_section_weight (node : MassNode) (section_name : String) : ℚ :=
  let section_idx := get_section_idx_from_name node section_name
  if section_idx < 0 then 0
  else
    match findIndexed node.inputs section_idx with
    | some p => p.2.mass
    | none => 0

/-- core.py _get_used_influence_indices (lines 75-101): the indices of the
in-use pointsOfBounds plugs of the section with the given index. -/
def get_used_influence_indices (node : MassNode) (section_idx : ℤ) : List ℕ :=
  match findIndexed node.inputs section_idx with
  | none => []
  | some p => p.2.pointsOfBounds.map Prod.fst

/-- Reading the node connected into inputs[section_idx].pointsOfBounds[j]. -/
def influenceAt (node : MassNode) (section_idx : ℤ) (influence_idx : ℕ) : Option String :=
  (findIndexed node.inputs section_idx).bind
    (fun p => (p.2.pointsOfBounds.find? (fun q => q.1 == influence_idx)).map Prod.snd)

/-- core.py get_section_influences (lines 512-547): the influences
connected into the section's used pointsOfBounds plugs, in plug order. -/
def get_section_influences (node : MassNode) (section_name : String) : List String :=
  let section_idx := get_section_idx_from_name node section_name
  (get_used_influence_indices node section_idx).filterMap (influenceAt node section_idx)

/-- core.py set_section_name (lines 271-306): refuse a new name already in
use, refuse an unresolvable section name, otherwise write the new name into
the slot's sectionIdentifier. -/
def set_section_name (node : MassNode) (section_name new_name : String) : MassNode :=
  if new_name ∈ get_section_names node then node
  else
    let section_idx := get_section_idx_from_name node section_name
    if section_idx < 0 then node
    else
      let rename := fun (s : MassSection) => { s with sectionIdentifier := new_name }
      { node with inputs := updateIndexed node.inputs section_idx rename }

/-- core.py set_section_weight (lines 310-339): no-op for an unresolvable
name, otherwise write the weight into the slot's mass. -/
def set_section_weight (node : MassNode) (section_name : String) (weight : ℚ) : MassNode :=
  let section_idx := get_section_idx_from_name node section_name
  if section_idx < 0 then node
  else
    let reweight := fun (s : MassSection) => { s with mass := weight }
    { node with inputs := updateIndexed node.inputs section_idx reweight }

/-- Python dict assignment d[k] = v: overwrite in place when the key is
present, append otherwise. -/
def dictSet (d : List (String × ℚ)) (k : String) (v : ℚ) : List (String × ℚ) :=
  match d with
  | [] => [(k, v)]
  | p :: rest => if p.1 = k then (k, v) :: rest else p :: dictSet rest k v

/-- The weights dict built by core.py get_normalised_weights
(lines 221-225): one entry per section name. -/
def weights_dict (node : MassNode) : List (String × ℚ) :=
  (get_section_names node).foldl (fun d n => dictSet d n (get_section_weight node n)) []

/-- The total_weight of core.py get_normalised_weights (line 229): the sum
of the values of the weights dict. -/
def total_section_weight (node : MassNode) : ℚ :=
  ((weights_dict node).map Prod.snd).sum

/-- Python float division: ZeroDivisionError, modelled as none, on a zero
divisor. -/
def pyDiv (a b : ℚ) : Option ℚ :=
  if b = 0 then none else some (a / b)

/-- The normalisation loop of core.py get_normalised_weights
(lines 233-240), dividing each weight by the total. -/
def normalise_scan (total : ℚ) :
    List (String × ℚ) → List (String × ℚ) → Option (List (String × ℚ))
  | acc, [] => some acc
  | acc, p :: rest =>
    match pyDiv p.2 total with
    | none => none
    | some v => normalise_scan total (dictSet acc p.1 v) rest

/-- core.py get_normalised_weights (lines 207-240). -/
def get_normalised_weights (node : MassNode) : Option (List (String × ℚ)) :=
  normalise_scan (total_section_weight node) [] (weights_dict node)

/-- One entry of the serialised sections list (core.py lines 707-714). -/
structure SectionData where
  name : String
  weight : ℚ
  influences : List String
deriving DecidableEq, Repr

/-- The serialised document of core.py serialise (lines 691-701): name,
settings, and the sections list. -/
structure MassData where
  name : String
  settings : MassSettings
  sections : List SectionData
deriving DecidableEq, Repr

/-- core.py serialise (lines 676-725), without the optional file write. -/
def serialise (mass_node : MassNode) : MassData :=
  { name := mass_node.name
    settings := mass_node.settings
    sections := (get_section_names mass_node).map (fun section_name =>
      { name := section_name
        weight := get_section_weight mass_node section_name
        influences := get_section_influences mass_node section_name }) }

/-- Whether inputs[c].sectionIdentifier reads as falsy in Python: the slot
is unused (getAttr gives None) or holds the empty string. -/
def isFreeSlot (node : MassNode) (c : ℕ) : Bool :=
  match sectionIdentifierAt node (c : ℤ) with
  | none => true
  | some s => s == ""

/-- The while-True scan of core.py _initialise_mass_section
(lines 633-646), walking counter = 0, 1, 2, ... until a falsy
sectionIdentifier is found. -/
def free_slot_scan (node : MassNode) : ℕ → ℕ → ℕ
  | 0, c => c
  | fuel + 1, c => if isFreeSlot node c then c else free_slot_scan node fuel (c + 1)

/-- The counter at which _initialise_mass_section stops.  The Python loop
always terminates because the slot one past the largest used index is
unused, so fuel covering that index is enough. -/
def first_free_section_slot (node : MassNode) : ℕ :=
  free_slot_scan node ((node.inputs.map Prod.fst).foldl max 0 + 2) 0

/-- core.py _initialise_mass_section (lines 619-646): probing an unused
slot with getAttr initialises it with the attribute defaults (mass 1.0, no
pointsOfBounds), after which the section name is written into it.  A slot
whose identifier is the empty string is falsy in Python and is overwritten
in place, keeping its mass and bounds. -/
def initialise_mass_section (node : MassNode) (name : String) : MassNode :=
  let counter := first_free_section_slot node
  match findIndexed node.inputs (counter : ℤ) with
  | some _ =>
    let rename := fun (s : MassSection) => { s with sectionIdentifier := name }
    { node with inputs := updateIndexed node.inputs (counter : ℤ) rename }
  | none =>
    { node with inputs := insertIndexed node.inputs counter ⟨name, 1, []⟩ }

/-- core.py add_mass_group (lines 551-574).  The cache invalidation it
performs has no observable effect on the node state. -/
def add_mass_group (mass_node : MassNode) (name : String) : MassNode :=
  initialise_mass_section mass_node name

/-- The while loop of core.py add_section_influence (lines 424-445):
counter = 0, 1, 2, ... until an index not in the used list is reached.  The
Python loop always terminates because the index one past the largest used
index is unused. -/
def unused_index_scan (used : List ℕ) : ℕ → ℕ → ℕ
  | 0, c => c
  | fuel + 1, c => if c ∈ used then unused_index_scan used fuel (c + 1) else c

/-- The first pointsOfBounds index not already in use. -/
def first_unused_influence_index (used : List ℕ) : ℕ :=
  unused_index_scan used (used.foldl max 0 + 2) 0

/-- core.py add_section_influence (lines 378-445).  The scene is the list
of existing transforms; every scene transform carries a worldMatrix plug,
so both objExists guards reduce to scene membership. -/
def add_section_influence (scene : List String) (mass_node : MassNode)
    (section_name influence : String) : MassNode :=
  if influence ∈ scene then
    let section_idx := get_section_idx_from_name mass_node section_name
    if section_idx < 0 then mass_node
    else
      let counter := first_unused_influence_index
        (get_used_influence_indices mass_node section_idx)
      let connect := fun (s : MassSection) =>
        { s with pointsOfBounds := insertIndexed s.pointsOfBounds counter influence }
      { mass_node with inputs := updateIndexed mass_node.inputs section_idx connect }
  else mass_node

/-- core.py new (lines 659-672): a fresh CenterOfMass node; the shape node
returned carries the requested name with Settings appended and the
attribute defaults of CenterOfMassNode.initialize. -/
def newMassNode (name : String) : MassNode :=
  { name := name ++ "Settings"
    settings := { calculate := true, drawDebuggingLines := true, drawSphere := true,
                  drawVerticalLine := true, sphereSize := 10 }
    inputs := [] }

/-- The name after the last namespace separator: Python
influence.split(a colon)[-1]. -/
def lastNamespaceComponent (s : String) : String :=
  (s.splitOn ":").getLastD s

/-- The influence resolution of core.py deserialise (lines 769-781): exact
scene name first; otherwise the suffix after the namespace is looked up
across namespaces (pm.ls recursive, modelled as matching the
after-namespace suffix, first hit wins), and an empty result skips the
influence. -/
def resolve_influence (scene : List String) (influence : String) : Option String :=
  if influence ∈ scene then some influence
  else
    let short := lastNamespaceComponent influence
    match scene.filter (fun n => lastNamespaceComponent n == short) with
    | [] => none
    | found :: _ => some found

/-- One influence step of core.py deserialise (lines 769-788). -/
def deserialise_influence (scene : List String) (mass_node : MassNode)
    (section_name influence : String) : MassNode :=
  match resolve_influence scene influence with
  | none => mass_node
  | some influence => add_section_influence scene mass_node section_name influence

/-- One section step of core.py deserialise (lines 753-788): create the
group, set its weight, then add each influence. -/
def deserialise_section (scene : List String) (mass_node : MassNode)
    (sec : SectionData) : MassNode :=
  let m := add_mass_group mass_node sec.name
  let m := set_section_weight m sec.name sec.weight
  sec.influences.foldl
    (fun m influence => deserialise_influence scene m sec.name influence) m

/-- core.py deserialise (lines 729-788), reading the already-parsed
document instead of a file. -/
def deserialise (scene : List String) (data : MassData) : MassNode :=
  let mass_node := newMassNode data.name
  let mass_node := { mass_node with settings := data.settings }
  data.sections.foldl (deserialise_section scene) mass_node

/-- Consecutively indexed slots starting at index j: the shape taken by any
indexed multi-attribute populated from scratch in slot order. -/
def denseFrom {α : Type} (j : ℕ) : List α → List (ℕ × α)
  | [] => []
  | x :: rest => (j, x) :: denseFrom (j + 1) rest

/-- The serialised record of one inputs slot: its identifier, mass, and
connected influences in plug order. -/
def sectionRecordOf (p : ℕ × MassSection) : SectionData :=
  { name := p.2.sectionIdentifier
    weight := p.2.mass
    influences := p.2.pointsOfBounds.map Prod.snd }

/-- The slot a serialised section record is rebuilt into by deserialise:
the stored name and weight, and the influences connected densely from
plug 0. -/
def sectionOfData (d : SectionData) : MassSection :=
  { sectionIdentifier := d.name
    mass := d.weight
    pointsOfBounds := denseFrom 0 d.influences }

/-- Modelled from the claim wording of the upstream-exclusion property:
keep exactly the entries with strictly positive mass that are marked as
considered. -/
def positive_considered (inputs : List ComInput) : List ComInput :=
  inputs.filter (fun e => decide (0 < e.mass) && e.considerInCalculation)

/-- The entries CenterOfMassNode.compute actually keeps: nonzero mass and
the considerInCalculation flag on (massimo_runtime.py line 122). -/
def nonzero_considered (inputs : List ComInput) : List ComInput :=
  inputs.filter (fun e => !(e.mass == 0) && e.considerInCalculation)

section CentroidLemmas

/-- The spec procedure recursion is the code fold, for every running state. -/
theorem spec_go_eq_foldl (l : List (ℚ × V3)) :
    ∀ (r : ℚ) (c : Option V3),
      spec_centroid_go r c l = (l.foldl centroid_step (r, c)).2 := by
  induction l with
  | nil => intro r c; rfl
  | cons p rest ih =>
    intro r c
    obtain ⟨m, v⟩ := p
    cases c with
    | none => simpa [spec_centroid_go, centroid_step] using ih (r + m) (some v)
    | some cur =>
      simpa [spec_centroid_go, centroid_step] using
        ih (r + m) (some (lerp_vector cur v (m / (r + m))))

theorem total_mass_nil : total_mass [] = 0 := rfl

theorem total_mass_cons (m : ℚ) (c : V3) (l : List (ℚ × V3)) :
    total_mass ((m, c) :: l) = m + total_mass l := by
  simp [total_mass]

theorem weighted_sum_nil : weighted_sum [] = ((0 : ℚ), (0 : ℚ), (0 : ℚ)) := rfl

theorem weighted_sum_cons (m : ℚ) (c : V3) (l : List (ℚ × V3)) :
    weighted_sum ((m, c) :: l) =
      (m * c.1 + (weighted_sum l).1,
       m * c.2.1 + (weighted_sum l).2.1,
       m * c.2.2 + (weighted_sum l).2.2) := by
  simp [weighted_sum]

/-- Inserting by mass only permutes the list. -/
theorem insert_by_mass_perm (p : ℚ × V3) (l : List (ℚ × V3)) :
    List.Perm (insert_by_mass p l) (p :: l) := by
  induction l with
  | nil => simp [insert_by_mass]
  | cons q rest ih =>
    by_cases h : p.1 ≤ q.1
    · simp [insert_by_mass, h]
    · simp only [insert_by_mass, if_neg h]
      exact ((ih.cons q).trans (List.Perm.swap p q rest)).symm.symm

/-- Sorting by mass only permutes the collated data. -/
theorem sorted_by_mass_perm (l : List (ℚ × V3)) :
    List.Perm (sorted_by_mass l) l := by
  induction l with
  | nil => simp [sorted_by_mass]
  | cons p rest ih =>
    exact (insert_by_mass_perm p (sorted_by_mass rest)).trans (ih.cons p)

end CentroidLemmas

/-- C1: the centroid aggregator of CenterOfMassNode.compute follows the
spec procedure exactly: sort ascending by mass, start from running_mass = 0
and a null current point, fold the running-ratio lerp, and return the
current point or the origin for an empty list. -/
theorem centroid_matches_spec_procedure (pairs : List (ℚ × V3)) :
    compute_centroid pairs = spec_centroid pairs := by
  unfold compute_centroid spec_centroid
  rw [spec_go_eq_foldl]

/-- C9: the interpolation helpers satisfy the endpoint identities
lerp_float a b 0 = a and lerp_float a b 1 = b, and lerp_vector is
lerp_float applied componentwise to x, y and z. -/
theorem lerp_endpoint_identities :
    (∀ a b : ℚ, lerp_float a b 0 = a) ∧
    (∀ a b : ℚ, lerp_float a b 1 = b) ∧
    (∀ (a b : V3) (t : ℚ),
      lerp_vector a b t =
        (lerp_float a.1 b.1 t, lerp_float a.2.1 b.2.1 t, lerp_float a.2.2 b.2.2 t)) := by
  refine ⟨fun a b => ?_, fun a b => ?_, fun a b t => rfl⟩ <;> simp [lerp_float]

/-- C10: with the calculate flag off, compute leaves all three output
translate values untouched and only marks them clean. -/
theorem compute_skips_when_calculate_off (s : ComputeState) (h : s.calculate = false) :
    (compute s).comTranslateX = s.comTranslateX ∧
    (compute s).comTranslateY = s.comTranslateY ∧
    (compute s).comTranslateZ = s.comTranslateZ ∧
    (compute s).cleanX = true ∧ (compute s).cleanY = true ∧ (compute s).cleanZ = true := by
  simp [compute, h]

/-- Witness for C10 at a concrete state with calculate off. -/
theorem compute_skips_when_calculate_off_witness :
    (ComputeState.mk false [⟨true, 5, [(1, 2, 3)]⟩] 7 8 9 false false false).calculate = false ∧
    ((compute (ComputeState.mk false [⟨true, 5, [(1, 2, 3)]⟩] 7 8 9 false false false)).comTranslateX =
        (ComputeState.mk false [⟨true, 5, [(1, 2, 3)]⟩] 7 8 9 false false false).comTranslateX ∧
      (compute (ComputeState.mk false [⟨true, 5, [(1, 2, 3)]⟩] 7 8 9 false false false)).comTranslateY =
        (ComputeState.mk false [⟨true, 5, [(1, 2, 3)]⟩] 7 8 9 false false false).comTranslateY ∧
      (compute (ComputeState.mk false [⟨true, 5, [(1, 2, 3)]⟩] 7 8 9 false false false)).comTranslateZ =
        (ComputeState.mk false [⟨true, 5, [(1, 2, 3)]⟩] 7 8 9 false false false).comTranslateZ ∧
      (compute (ComputeState.mk false [⟨true, 5, [(1, 2, 3)]⟩] 7 8 9 false false false)).cleanX = true ∧
      (compute (ComputeState.mk false [⟨true, 5, [(1, 2, 3)]⟩] 7 8 9 false false false)).cleanY = true ∧
      (compute (ComputeState.mk false [⟨true, 5, [(1, 2, 3)]⟩] 7 8 9 false false false)).cleanZ = true) :=
  ⟨rfl, compute_skips_when_calculate_off _ rfl⟩

/-- C6: renaming a section to a name already in use is rejected and leaves
the node state unchanged. -/
theorem set_section_name_rejects_collision (node : MassNode) (section_name new_name : String)
    (h : new_name ∈ get_section_names node) :
    set_section_name node section_name new_name = node := by
  simp [set_section_name, h]

/-- Witness for C6 at a concrete node, renaming torso to the in-use name
legs. -/
theorem set_section_name_rejects_collision_witness :
    "legs" ∈ get_section_names
        (MassNode.mk "mSettings" ⟨true, true, true, true, 10⟩
          [(0, ⟨"torso", 2, [(0, "j1")]⟩), (2, ⟨"legs", 3, []⟩)]) ∧
    set_section_name
        (MassNode.mk "mSettings" ⟨true, true, true, true, 10⟩
          [(0, ⟨"torso", 2, [(0, "j1")]⟩), (2, ⟨"legs", 3, []⟩)]) "torso" "legs" =
      MassNode.mk "mSettings" ⟨true, true, true, true, 10⟩
        [(0, ⟨"torso", 2, [(0, "j1")]⟩), (2, ⟨"legs", 3, []⟩)] :=
  ⟨by decide, set_section_name_rejects_collision _ _ _ (by decide)⟩

/-- C3 counterexample: an entry with the negative mass -1 is not excluded
by the code, whose filter only drops mass == 0.0 entries, so the output
over the raw input differs from the output over the entries with strictly
positive mass (here: the empty list, giving the origin). -/
theorem negative_mass_entry_is_not_excluded :
    compute_from_inputs [⟨true, -1, [(1, 1, 1)]⟩] ≠
      compute_from_inputs (positive_considered [⟨true, -1, [(1, 1, 1)]⟩]) := by
  have h1 : compute_from_inputs [⟨true, -1, [(1, 1, 1)]⟩] = (1, 1, 1) := by
    norm_num [compute_from_inputs, collate, center, compute_centroid, sorted_by_mass,
      insert_by_mass, centroid_step, List.filterMap_cons, List.filterMap_nil]
  have h2 : positive_considered [⟨true, -1, [(1, 1, 1)]⟩] = [] := by decide
  rw [h1, h2]
  decide

/-- C3 amended: the entries excluded from the calculation are exactly those
with mass equal to zero or with considerInCalculation off; entries with
negative mass are kept. -/
theorem excluded_entries_are_zero_mass_or_unconsidered (inputs : List ComInput) :
    compute_from_inputs (nonzero_considered inputs) = compute_from_inputs inputs := by
  suffices h : collate (nonzero_considered inputs) = collate inputs by
    simp [compute_from_inputs, h]
  induction inputs with
  | nil => rfl
  | cons e rest ih =>
    by_cases hm : e.mass = 0 <;> by_cases hc : e.considerInCalculation <;>
      simp [nonzero_considered, List.filter_cons, collate, hm, hc] <;>
      simpa [nonzero_considered, collate] using ih

/-- Invariant of the centroid fold: starting from a positive running mass r
and the running weighted mean (sx/r, sy/r, sz/r), folding a list of
positively-massed pairs lands on the accumulated weighted mean. -/
theorem centroid_fold_invariant (l : List (ℚ × V3)) :
    ∀ (r sx sy sz : ℚ), 0 < r → (∀ p ∈ l, 0 < p.1) →
      l.foldl centroid_step (r, some (sx / r, sy / r, sz / r)) =
        (r + total_mass l,
         some ((sx + (weighted_sum l).1) / (r + total_mass l),
               (sy + (weighted_sum l).2.1) / (r + total_mass l),
               (sz + (weighted_sum l).2.2) / (r + total_mass l))) := by
  induction l with
  | nil => intro r sx sy sz hr _; simp [total_mass_nil, weighted_sum_nil]
  | cons p rest ih =>
    intro r sx sy sz hr hpos
    obtain ⟨m, c⟩ := p
    have hm : 0 < m := hpos (m, c) (List.mem_cons_self _ _)
    have hrm : 0 < r + m := by linarith
    have hr0 : r ≠ 0 := ne_of_gt hr
    have hrm0 : r + m ≠ 0 := ne_of_gt hrm
    have hx : lerp_float (sx / r) c.1 (m / (r + m)) = (sx + m * c.1) / (r + m) := by
      unfold lerp_float; field_simp; ring
    have hy : lerp_float (sy / r) c.2.1 (m / (r + m)) = (sy + m * c.2.1) / (r + m) := by
      unfold lerp_float; field_simp; ring
    have hz : lerp_float (sz / r) c.2.2 (m / (r + m)) = (sz + m * c.2.2) / (r + m) := by
      unfold lerp_float; field_simp; ring
    have hstep : centroid_step (r, some (sx / r, sy / r, sz / r)) (m, c) =
        (r + m, some ((sx + m * c.1) / (r + m),
                      (sy + m * c.2.1) / (r + m),
                      (sz + m * c.2.2) / (r + m))) := by
      simp [centroid_step, lerp_vector, hx, hy, hz]
    rw [List.foldl_cons, hstep,
      ih (r + m) (sx + m * c.1) (sy + m * c.2.1) (sz + m * c.2.2) hrm
        (fun q hq => hpos q (List.mem_cons_of_mem _ hq))]
    simp [total_mass_cons, weighted_sum_cons, add_assoc]

/-- With positive masses, the running-ratio lerp procedure computes the
closed-form weighted mean exactly. -/
theorem compute_centroid_eq_weighted_mean (l : List (ℚ × V3)) (hpos : ∀ p ∈ l, 0 < p.1) :
    compute_centroid l = weighted_mean l := by
  have hperm := sorted_by_mass_perm l
  rcases hs : sorted_by_mass l with - | ⟨⟨m, c⟩, t⟩
  · have hl : l = [] := by
      rw [hs] at hperm; exact hperm.symm.eq_nil
    subst hl
    simp [compute_centroid, weighted_mean, total_mass, weighted_sum, sorted_by_mass,
      centroid_step]
  · rw [hs] at hperm
    have hposs : ∀ p ∈ (m, c) :: t, 0 < p.1 := fun p hp => hpos p (hperm.subset hp)
    have hm : 0 < m := hposs (m, c) (List.mem_cons_self _ _)
    have hm0 : m ≠ 0 := ne_of_gt hm
    have htot : total_mass l = m + total_mass t := by
      have hmap : total_mass ((m, c) :: t) = total_mass l :=
        List.Perm.sum_eq (hperm.map Prod.fst)
      rw [← hmap, total_mass_cons]
    have hws1 : (weighted_sum l).1 = m * c.1 + (weighted_sum t).1 := by
      have hmap : (weighted_sum ((m, c) :: t)).1 = (weighted_sum l).1 :=
        List.Perm.sum_eq (hperm.map (fun p => p.1 * p.2.1))
      rw [← hmap, weighted_sum_cons]
    have hws2 : (weighted_sum l).2.1 = m * c.2.1 + (weighted_sum t).2.1 := by
      have hmap : (weighted_sum ((m, c) :: t)).2.1 = (weighted_sum l).2.1 :=
        List.Perm.sum_eq (hperm.map (fun p => p.1 * p.2.2.1))
      rw [← hmap, weighted_sum_cons]
    have hws3 : (weighted_sum l).2.2 = m * c.2.2 + (weighted_sum t).2.2 := by
      have hmap : (weighted_sum ((m, c) :: t)).2.2 = (weighted_sum l).2.2 :=
        List.Perm.sum_eq (hperm.map (fun p => p.1 * p.2.2.2))
      rw [← hmap, weighted_sum_cons]
    have h1 : centroid_step (0, none) (m, c) = (m, some c) := by
      simp [centroid_step]
    have hc : (c : V3) = (m * c.1 / m, m * c.2.1 / m, m * c.2.2 / m) := by
      rw [mul_div_cancel_left₀ _ hm0, mul_div_cancel_left₀ _ hm0, mul_div_cancel_left₀ _ hm0]
    have htpos : ∀ q ∈ t, 0 < q.1 := fun q hq => hposs q (List.mem_cons_of_mem _ hq)
    unfold compute_centroid
    rw [hs, List.foldl_cons, h1, hc,
      centroid_fold_invariant t m (m * c.1) (m * c.2.1) (m * c.2.2) hm htpos]
    simp [weighted_mean, htot, hws1, hws2, hws3]

/-- C2 counterexample: the claim is false — in exact arithmetic no list of
positively-massed pairs makes the procedure differ from the closed-form
weighted mean, and no permutation of such a list changes the result. -/
theorem no_positive_list_separates_lerp_from_weighted_mean :
    ¬ ∃ l : List (ℚ × V3), (∀ p ∈ l, 0 < p.1) ∧
        (compute_centroid l ≠ weighted_mean l ∧
          ∃ l2 : List (ℚ × V3), List.Perm l2 l ∧ compute_centroid l2 ≠ compute_centroid l) := by
  rintro ⟨l, hpos, hne, -⟩
  exact hne (compute_centroid_eq_weighted_mean l hpos)

/-- C2 amended: for positive masses the ascending-sort running-ratio lerp
procedure agrees, in exact arithmetic, with the closed-form weighted mean
sum(mass_i * center_i) / sum(mass_i), and is therefore order-independent;
the two can only diverge under floating-point rounding. -/
theorem running_lerp_is_weighted_mean_and_order_free (l : List (ℚ × V3))
    (hpos : ∀ p ∈ l, 0 < p.1) :
    compute_centroid l = weighted_mean l ∧
      ∀ l2 : List (ℚ × V3), List.Perm l2 l → compute_centroid l2 = compute_centroid l := by
  refine ⟨compute_centroid_eq_weighted_mean l hpos, fun l2 hp => ?_⟩
  have hpos2 : ∀ p ∈ l2, 0 < p.1 := fun p hp2 => hpos p (hp.subset hp2)
  rw [compute_centroid_eq_weighted_mean l2 hpos2, compute_centroid_eq_weighted_mean l hpos]
  unfold weighted_mean total_mass weighted_sum
  rw [List.Perm.sum_eq (hp.map Prod.fst), List.Perm.sum_eq (hp.map (fun p => p.1 * p.2.1)),
    List.Perm.sum_eq (hp.map (fun p => p.1 * p.2.2.1)),
    List.Perm.sum_eq (hp.map (fun p => p.1 * p.2.2.2))]

/-- Witness for the amended C2 at a concrete two-entry list. -/
theorem running_lerp_is_weighted_mean_and_order_free_witness :
    (∀ p ∈ [((1 : ℚ), ((2 : ℚ), (0 : ℚ), (4 : ℚ))), ((3 : ℚ), ((6 : ℚ), (0 : ℚ), (0 : ℚ)))], 0 < p.1) ∧
      (compute_centroid [((1 : ℚ), ((2 : ℚ), (0 : ℚ), (4 : ℚ))), ((3 : ℚ), ((6 : ℚ), (0 : ℚ), (0 : ℚ)))] =
          weighted_mean [((1 : ℚ), ((2 : ℚ), (0 : ℚ), (4 : ℚ))), ((3 : ℚ), ((6 : ℚ), (0 : ℚ), (0 : ℚ)))] ∧
        ∀ l2 : List (ℚ × V3),
          List.Perm l2 [((1 : ℚ), ((2 : ℚ), (0 : ℚ), (4 : ℚ))), ((3 : ℚ), ((6 : ℚ), (0 : ℚ), (0 : ℚ)))] →
            compute_centroid l2 =
              compute_centroid [((1 : ℚ), ((2 : ℚ), (0 : ℚ), (4 : ℚ))), ((3 : ℚ), ((6 : ℚ), (0 : ℚ), (0 : ℚ)))]) :=
  ⟨by decide, running_lerp_is_weighted_mean_and_order_free _ (by decide)⟩

section DictLemmas

theorem dictSet_ne_nil (d : List (String × ℚ)) (k : String) (v : ℚ) : dictSet d k v ≠ [] := by
  cases d with
  | nil => simp [dictSet]
  | cons p rest => by_cases h : p.1 = k <;> simp [dictSet, h]

theorem dictSet_mem {d : List (String × ℚ)} {k : String} {v : ℚ} {p : String × ℚ}
    (hp : p ∈ dictSet d k v) : p ∈ d ∨ p = (k, v) := by
  induction d with
  | nil => simp [dictSet] at hp; simp [hp]
  | cons q rest ih =>
    by_cases h : q.1 = k
    · simp only [dictSet, if_pos h, List.mem_cons] at hp
      rcases hp with hp | hp
      · exact Or.inr hp
      · exact Or.inl (List.mem_cons_of_mem _ hp)
    · simp only [dictSet, if_neg h, List.mem_cons] at hp
      rcases hp with hp | hp
      · exact Or.inl (hp ▸ List.mem_cons_self _ _)
      · rcases ih hp with h2 | h2
        · exact Or.inl (List.mem_cons_of_mem _ h2)
        · exact Or.inr h2

theorem dictSet_keys_of_mem {d : List (String × ℚ)} {k : String} (v : ℚ)
    (h : k ∈ d.map Prod.fst) : (dictSet d k v).map Prod.fst = d.map Prod.fst := by
  induction d with
  | nil => simp at h
  | cons q rest ih =>
    by_cases hq : q.1 = k
    · simp [dictSet, hq]
    · have hk : k ∈ rest.map Prod.fst := by
        rcases List.mem_cons.mp h with h1 | h1
        · exact absurd h1.symm hq
        · exact h1
      simp [dictSet, hq, ih hk]

theorem dictSet_of_not_mem_keys {d : List (String × ℚ)} {k : String} (v : ℚ)
    (h : k ∉ d.map Prod.fst) : dictSet d k v = d ++ [(k, v)] := by
  induction d with
  | nil => rfl
  | cons q rest ih =>
    have hq : q.1 ≠ k := by
      intro he; exact h (by simp [he])
    have hk : k ∉ rest.map Prod.fst := by
      intro he; exact h (by simp [he])
    simp [dictSet, hq, ih hk]

theorem dictSet_keys_nodup {d : List (String × ℚ)} {k : String} (v : ℚ)
    (h : (d.map Prod.fst).Nodup) : ((dictSet d k v).map Prod.fst).Nodup := by
  by_cases hk : k ∈ d.map Prod.fst
  · rw [dictSet_keys_of_mem v hk]; exact h
  · rw [dictSet_of_not_mem_keys v hk]
    simp [List.nodup_append, h, hk]

theorem foldl_dictSet_keys_nodup (w : String → ℚ) (names : List String) :
    ∀ d : List (String × ℚ), (d.map Prod.fst).Nodup →
      ((names.foldl (fun d n => dictSet d n (w n)) d).map Prod.fst).Nodup := by
  induction names with
  | nil => intro d hd; simpa using hd
  | cons n rest ih => intro d hd; exact ih _ (dictSet_keys_nodup _ hd)

theorem foldl_dictSet_values (w : String → ℚ) (names : List String) :
    ∀ d : List (String × ℚ), (∀ p ∈ d, p.2 = w p.1) →
      ∀ p ∈ names.foldl (fun d n => dictSet d n (w n)) d, p.2 = w p.1 := by
  induction names with
  | nil => intro d hd; exact hd
  | cons n rest ih =>
    intro d hd
    apply ih
    intro p hp
    rcases dictSet_mem hp with h | h
    · exact hd p h
    · rw [h]

theorem foldl_dictSet_ne_nil (w : String → ℚ) (names : List String) :
    ∀ d : List (String × ℚ), d ≠ [] →
      names.foldl (fun d n => dictSet d n (w n)) d ≠ [] := by
  induction names with
  | nil => intro d hd; exact hd
  | cons n rest ih => intro d _; exact ih _ (dictSet_ne_nil _ _ _)

theorem weights_dict_keys_nodup (node : MassNode) :
    ((weights_dict node).map Prod.fst).Nodup :=
  foldl_dictSet_keys_nodup _ _ [] (by simp)

theorem weights_dict_values (node : MassNode) :
    ∀ p ∈ weights_dict node, p.2 = get_section_weight node p.1 :=
  foldl_dictSet_values _ _ [] (by simp)

theorem normalise_scan_eq (total : ℚ) (ht : total ≠ 0) (ws : List (String × ℚ)) :
    ∀ acc : List (String × ℚ),
      ((acc.map Prod.fst) ++ (ws.map Prod.fst)).Nodup →
      normalise_scan total acc ws = some (acc ++ ws.map (fun p => (p.1, p.2 / total))) := by
  induction ws with
  | nil => intro acc _; simp [normalise_scan]
  | cons p rest ih =>
    intro acc h
    have hp1 : p.1 ∉ acc.map Prod.fst := by
      intro hmem
      exact (List.nodup_append.mp h).2.2 hmem (by simp)
    have hdiv : pyDiv p.2 total = some (p.2 / total) := by rw [pyDiv, if_neg ht]
    rw [normalise_scan, hdiv]
    show normalise_scan total (dictSet acc p.1 (p.2 / total)) rest = _
    rw [dictSet_of_not_mem_keys _ hp1,
      ih (acc ++ [(p.1, p.2 / total)]) (by simpa using h)]
    simp

theorem sum_map_div (l : List ℚ) (t : ℚ) :
    (l.map (fun x => x / t)).sum = l.sum / t := by
  induction l with
  | nil => simp
  | cons x rest ih => simp [ih, add_div]

end DictLemmas

/-- C4: with a strictly positive total weight, get_normalised_weights
returns a dictionary whose values sum to exactly 1, each value being the
section's weight divided by the total weight. -/
theorem normalised_weights_sum_to_one (node : MassNode)
    (h : 0 < total_section_weight node) :
    ∃ d, get_normalised_weights node = some d ∧
      (d.map Prod.snd).sum = 1 ∧
      ∀ p ∈ d, p.2 = get_section_weight node p.1 / total_section_weight node := by
  have ht : total_section_weight node ≠ 0 := ne_of_gt h
  refine ⟨(weights_dict node).map (fun p => (p.1, p.2 / total_section_weight node)),
    ?_, ?_, ?_⟩
  · unfold get_normalised_weights
    rw [normalise_scan_eq _ ht (weights_dict node) [] (by simpa using weights_dict_keys_nodup node)]
    simp
  · rw [List.map_map]
    have h1 : (Prod.snd ∘ fun p : String × ℚ => (p.1, p.2 / total_section_weight node)) =
        (fun x => x / total_section_weight node) ∘ Prod.snd := rfl
    rw [h1, ← List.map_map, sum_map_div]
    exact div_self ht
  · intro p hp
    rcases List.mem_map.mp hp with ⟨q, hq, rfl⟩
    show q.2 / total_section_weight node =
      get_section_weight node q.1 / total_section_weight node
    rw [weights_dict_values node q hq]

/-- Witness for C4 at a concrete one-section node of weight 2. -/
theorem normalised_weights_sum_to_one_witness :
    0 < total_section_weight
        (MassNode.mk "mSettings" ⟨true, true, true, true, 10⟩
          [(0, ⟨"torso", 2, []⟩)]) ∧
    ∃ d, get_normalised_weights
          (MassNode.mk "mSettings" ⟨true, true, true, true, 10⟩
            [(0, ⟨"torso", 2, []⟩)]) = some d ∧
        (d.map Prod.snd).sum = 1 ∧
        ∀ p ∈ d, p.2 = get_section_weight
            (MassNode.mk "mSettings" ⟨true, true, true, true, 10⟩
              [(0, ⟨"torso", 2, []⟩)]) p.1 /
          total_section_weight
            (MassNode.mk "mSettings" ⟨true, true, true, true, 10⟩
              [(0, ⟨"torso", 2, []⟩)]) :=
  have hpos : 0 < total_section_weight
      (MassNode.mk "mSettings" ⟨true, true, true, true, 10⟩
        [(0, ⟨"torso", 2, []⟩)]) := by
    have hw : weights_dict
        (MassNode.mk "mSettings" ⟨true, true, true, true, 10⟩
          [(0, ⟨"torso", 2, []⟩)]) = [("torso", 2)] := by
      decide
    simp [total_section_weight, hw]
  ⟨hpos, normalised_weights_sum_to_one _ hpos⟩

/-- C5: a node with at least one section whose total weight is exactly zero
makes get_normalised_weights divide by zero (ZeroDivisionError, modelled as
none); the source has no guard for it. -/
theorem zero_total_weight_divides_by_zero (node : MassNode) (h1 : node.inputs ≠ [])
    (h2 : total_section_weight node = 0) : get_normalised_weights node = none := by
  have hnames : get_section_names node ≠ [] := by
    rcases hin : node.inputs with - | ⟨q, rest⟩
    · exact absurd hin h1
    · have hq : get_name_from_section_idx node q.1 = some q.2.sectionIdentifier := by
        simp [get_name_from_section_idx, used_section_indices, hin, sectionIdentifierAt,
          findIndexed]
      simp [get_section_names, used_section_indices, hin, List.filterMap_cons, hq]
  have hw : weights_dict node ≠ [] := by
    rcases hn : get_section_names node with - | ⟨n, rest⟩
    · exact absurd hn hnames
    · unfold weights_dict
      rw [hn, List.foldl_cons]
      exact foldl_dictSet_ne_nil _ _ _ (dictSet_ne_nil _ _ _)
  rcases hwd : weights_dict node with - | ⟨p, rest⟩
  · exact absurd hwd hw
  · unfold get_normalised_weights
    rw [hwd, h2]
    simp [normalise_scan, pyDiv]

/-- Witness for C5 at a concrete one-section node of weight 0. -/
theorem zero_total_weight_divides_by_zero_witness :
    (MassNode.mk "mSettings" ⟨true, true, true, true, 10⟩
        [(0, ⟨"torso", 0, []⟩)]).inputs ≠ [] ∧
    total_section_weight
        (MassNode.mk "mSettings" ⟨true, true, true, true, 10⟩
          [(0, ⟨"torso", 0, []⟩)]) = 0 ∧
    get_normalised_weights
        (MassNode.mk "mSettings" ⟨true, true, true, true, 10⟩
          [(0, ⟨"torso", 0, []⟩)]) = none :=
  have h1 : (MassNode.mk "mSettings" ⟨true, true, true, true, 10⟩
      [(0, ⟨"torso", 0, []⟩)]).inputs ≠ [] := by decide
  have h2 : total_section_weight
      (MassNode.mk "mSettings" ⟨true, true, true, true, 10⟩
        [(0, ⟨"torso", 0, []⟩)]) = 0 := by
    have hw : weights_dict
        (MassNode.mk "mSettings" ⟨true, true, true, true, 10⟩
          [(0, ⟨"torso", 0, []⟩)]) = [("torso", 0)] := by decide
    simp [total_section_weight, hw]
  ⟨h1, h2, zero_total_weight_divides_by_zero _ h1 h2⟩

section SentinelLemmas

theorem section_idx_scan_none (node : MassNode) (name : String) :
    ∀ l : List ℕ, (∀ idx ∈ l, sectionIdentifierAt node (idx : ℤ) ≠ some name) →
      section_idx_scan node name l = -1 := by
  intro l
  induction l with
  | nil => intro _; rfl
  | cons idx rest ih =>
    intro h
    rw [section_idx_scan, if_neg (h idx (List.mem_cons_self _ _))]
    exact ih (fun j hj => h j (List.mem_cons_of_mem _ hj))

theorem findIndexed_neg {α : Type} (l : List (ℕ × α)) (idx : ℤ) (h : idx < 0) :
    findIndexed l idx = none := by
  induction l with
  | nil => rfl
  | cons p rest ih =>
    have hb : ((p.1 : ℤ) == idx) = false := by
      have : (p.1 : ℤ) ≠ idx := by
        have := Int.natCast_nonneg p.1
        omega
      simpa using this
    simpa [findIndexed, List.find?_cons, hb] using ih

end SentinelLemmas

/-- C8: a section name that resolves to no section gives the sentinel
results: index -1, weight 0, and an empty influence list. -/
theorem missing_section_gives_sentinels (node : MassNode) (name : String)
    (h : name ∉ get_section_names node) :
    get_section_idx_from_name node name = -1 ∧
    get_section_weight node name = 0 ∧
    get_section_influences node name = [] := by
  have hall : ∀ idx ∈ used_section_indices node,
      sectionIdentifierAt node (idx : ℤ) ≠ some name := by
    intro idx hidx heq
    apply h
    apply List.mem_filterMap.mpr
    exact ⟨idx, hidx, by simp [get_name_from_section_idx, hidx, heq]⟩
  have hidx : get_section_idx_from_name node name = -1 :=
    section_idx_scan_none node name _ hall
  refine ⟨hidx, ?_, ?_⟩
  · simp [get_section_weight, hidx]
  · simp [get_section_influences, hidx, get_used_influence_indices,
      findIndexed_neg _ _ (by decide : (-1 : ℤ) < 0)]

/-- Witness for C8 at a concrete node and the absent name spine. -/
theorem missing_section_gives_sentinels_witness :
    "spine" ∉ get_section_names
        (MassNode.mk "mSettings" ⟨true, true, true, true, 10⟩
          [(0, ⟨"torso", 2, [(0, "j1")]⟩), (2, ⟨"legs", 3, []⟩)]) ∧
    (get_section_idx_from_name
        (MassNode.mk "mSettings" ⟨true, true, true, true, 10⟩
          [(0, ⟨"torso", 2, [(0, "j1")]⟩), (2, ⟨"legs", 3, []⟩)]) "spine" = -1 ∧
      get_section_weight
        (MassNode.mk "mSettings" ⟨true, true, true, true, 10⟩
          [(0, ⟨"torso", 2, [(0, "j1")]⟩), (2, ⟨"legs", 3, []⟩)]) "spine" = 0 ∧
      get_section_influences
        (MassNode.mk "mSettings" ⟨true, true, true, true, 10⟩
          [(0, ⟨"torso", 2, [(0, "j1")]⟩), (2, ⟨"legs", 3, []⟩)]) "spine" = []) :=
  ⟨by decide, missing_section_gives_sentinels _ _ (by decide)⟩

section DenseLemmas

variable {α : Type}

theorem denseFrom_append (a b : List α) :
    ∀ j, denseFrom j (a ++ b) = denseFrom j a ++ denseFrom (j + a.length) b := by
  induction a with
  | nil => intro j; simp [denseFrom]
  | cons x rest ih =>
    intro j
    show (j, x) :: denseFrom (j + 1) (rest ++ b) =
      ((j, x) :: denseFrom (j + 1) rest) ++ denseFrom (j + (x :: rest).length) b
    rw [ih (j + 1), List.cons_append]
    have harith : j + 1 + rest.length = j + (x :: rest).length := by
      simp only [List.length_cons]; omega
    rw [harith]

theorem denseFrom_map_snd (ts : List α) : ∀ j, (denseFrom j ts).map Prod.snd = ts := by
  induction ts with
  | nil => intro j; rfl
  | cons x rest ih => intro j; simp [denseFrom, ih]

theorem denseFrom_mem_fst (ts : List α) :
    ∀ j i, i ∈ (denseFrom j ts).map Prod.fst ↔ (j ≤ i ∧ i < j + ts.length) := by
  induction ts with
  | nil => intro j i; simp [denseFrom]
  | cons x rest ih =>
    intro j i
    simp only [denseFrom, List.map_cons, List.mem_cons, ih (j + 1), List.length_cons]
    omega

theorem denseFrom_fst_nodup (ts : List α) : ∀ j, ((denseFrom j ts).map Prod.fst).Nodup := by
  induction ts with
  | nil => intro j; simp [denseFrom]
  | cons x rest ih =>
    intro j
    simp only [denseFrom, List.map_cons]
    refine List.nodup_cons.mpr ⟨?_, ih (j + 1)⟩
    rw [denseFrom_mem_fst]
    omega

theorem findIndexed_cons_self (i : ℕ) (x : α) (rest : List (ℕ × α)) :
    findIndexed ((i, x) :: rest) (i : ℤ) = some (i, x) := by
  simp [findIndexed, List.find?_cons]

theorem findIndexed_cons_ne (i : ℕ) (x : α) (rest : List (ℕ × α)) (idx : ℤ)
    (h : (i : ℤ) ≠ idx) : findIndexed ((i, x) :: rest) idx = findIndexed rest idx := by
  simp [findIndexed, List.find?_cons, h]

theorem findIndexed_denseFrom_none (ts : List α) :
    ∀ (j : ℕ) (idx : ℤ), (idx < j ∨ (j : ℤ) + ts.length ≤ idx) →
      findIndexed (denseFrom j ts) idx = none := by
  induction ts with
  | nil => intro j idx _; rfl
  | cons x rest ih =>
    intro j idx h
    have hne : (j : ℤ) ≠ idx := by
      simp only [List.length_cons] at h
      push_cast at h
      omega
    rw [denseFrom, findIndexed_cons_ne _ _ _ _ hne]
    apply ih (j + 1)
    simp only [List.length_cons] at h
    push_cast at h ⊢
    omega

theorem findIndexed_denseFrom_at (t : α) (b : List α) :
    ∀ (a : List α) (j : ℕ),
      findIndexed (denseFrom j (a ++ t :: b)) ((j + a.length : ℕ) : ℤ) =
        some (j + a.length, t) := by
  intro a
  induction a with
  | nil =>
    intro j
    simpa [denseFrom] using findIndexed_cons_self j t (denseFrom (j + 1) b)
  | cons x rest ih =>
    intro j
    have h2 : j + (x :: rest).length = j + 1 + rest.length := by
      simp only [List.length_cons]; omega
    have hne : (j : ℤ) ≠ ((j + (x :: rest).length : ℕ) : ℤ) := by
      push_cast
      simp only [List.length_cons]
      omega
    rw [List.cons_append, denseFrom, findIndexed_cons_ne _ _ _ _ hne, h2]
    exact ih (j + 1)

theorem insertIndexed_denseFrom_append (x : α) (ts : List α) :
    ∀ j, insertIndexed (denseFrom j ts) (j + ts.length) x = denseFrom j (ts ++ [x]) := by
  induction ts with
  | nil => intro j; simp [insertIndexed, denseFrom]
  | cons y rest ih =>
    intro j
    have hnotlt : ¬ (j + (y :: rest).length < j) := by omega
    have h2 : j + (y :: rest).length = j + 1 + rest.length := by
      simp only [List.length_cons]; omega
    rw [denseFrom, insertIndexed, if_neg hnotlt, h2, ih (j + 1)]
    rfl

theorem updateIndexed_none (l : List (ℕ × α)) (idx : ℤ) (f : α → α)
    (h : ∀ p ∈ l, (p.1 : ℤ) ≠ idx) : updateIndexed l idx f = l := by
  induction l with
  | nil => rfl
  | cons p rest ih =>
    rw [updateIndexed, if_neg (h p (List.mem_cons_self _ _)),
      ih (fun q hq => h q (List.mem_cons_of_mem _ hq))]

theorem updateIndexed_denseFrom_at (t : α) (b : List α) (f : α → α) :
    ∀ (a : List α) (j : ℕ),
      updateIndexed (denseFrom j (a ++ t :: b)) ((j + a.length : ℕ) : ℤ) f =
        denseFrom j (a ++ f t :: b) := by
  intro a
  induction a with
  | nil =>
    intro j
    have htail : updateIndexed (denseFrom (j + 1) b) ((j : ℕ) : ℤ) f =
        denseFrom (j + 1) b := by
      apply updateIndexed_none
      intro p hp
      have hmem := (denseFrom_mem_fst b (j + 1) p.1).mp (List.mem_map_of_mem Prod.fst hp)
      omega
    show (if ((j : ℕ) : ℤ) = ((j : ℕ) : ℤ) then ((j : ℕ), f t) else (j, t)) ::
        updateIndexed (denseFrom (j + 1) b) ((j : ℕ) : ℤ) f =
      (j, f t) :: denseFrom (j + 1) b
    rw [if_pos rfl, htail]
  | cons x rest ih =>
    intro j
    have h2 : j + (x :: rest).length = j + 1 + rest.length := by
      simp only [List.length_cons]; omega
    have hne : ¬ ((j : ℤ) = ((j + (x :: rest).length : ℕ) : ℤ)) := by
      push_cast
      simp only [List.length_cons]
      omega
    rw [List.cons_append, denseFrom, updateIndexed, if_neg hne, h2, ih (j + 1)]
    rfl

end DenseLemmas

section ConsLemmas

/-- Scanning section indices that avoid the head slot index reads the same
identifiers as on the node without that head slot. -/
theorem section_idx_scan_skip_head (nm : String) (st : MassSettings) (i0 : ℕ)
    (s0 : MassSection) (rest : List (ℕ × MassSection)) (name : String) :
    ∀ l : List ℕ, (∀ i ∈ l, i ≠ i0) →
      section_idx_scan (MassNode.mk nm st ((i0, s0) :: rest)) name l =
        section_idx_scan (MassNode.mk nm st rest) name l := by
  intro l
  induction l with
  | nil => intro _; rfl
  | cons i l ih =>
    intro h
    have hne : (i0 : ℤ) ≠ (i : ℤ) := by
      have := h i (List.mem_cons_self _ _)
      omega
    have hsA : sectionIdentifierAt (MassNode.mk nm st ((i0, s0) :: rest)) (i : ℤ) =
        sectionIdentifierAt (MassNode.mk nm st rest) (i : ℤ) := by
      show (findIndexed ((i0, s0) :: rest) (i : ℤ)).map _ = _
      rw [findIndexed_cons_ne _ _ _ _ hne]
      rfl
    rw [section_idx_scan, section_idx_scan, hsA,
      ih (fun a ha => h a (List.mem_cons_of_mem _ ha))]

theorem sectionIdentifierAt_cons_self (nm : String) (st : MassSettings) (i0 : ℕ)
    (s0 : MassSection) (rest : List (ℕ × MassSection)) :
    sectionIdentifierAt (MassNode.mk nm st ((i0, s0) :: rest)) (i0 : ℤ) =
      some s0.sectionIdentifier := by
  show (findIndexed ((i0, s0) :: rest) (i0 : ℤ)).map _ = _
  rw [findIndexed_cons_self]
  rfl

/-- Looking up a section name on a node whose head slot index is not
repeated: the head answers when its identifier matches, and the rest of the
node answers otherwise. -/
theorem get_section_idx_from_name_cons (nm : String) (st : MassSettings) (i0 : ℕ)
    (s0 : MassSection) (rest : List (ℕ × MassSection)) (name : String)
    (h : ∀ p ∈ rest, p.1 ≠ i0) :
    get_section_idx_from_name (MassNode.mk nm st ((i0, s0) :: rest)) name =
      if s0.sectionIdentifier = name then (i0 : ℤ)
      else get_section_idx_from_name (MassNode.mk nm st rest) name := by
  show section_idx_scan _ name (i0 :: rest.map Prod.fst) = _
  rw [section_idx_scan, sectionIdentifierAt_cons_self]
  by_cases hid : s0.sectionIdentifier = name
  · rw [if_pos (by rw [hid]), if_pos hid]
  · rw [if_neg (by simpa using hid), if_neg hid]
    rw [section_idx_scan_skip_head nm st i0 s0 rest name (rest.map Prod.fst)
      (fun i hi => by rcases List.mem_map.mp hi with ⟨p, hp, rfl⟩; exact h p hp)]
    rfl

theorem section_idx_scan_nonneg_mem (node : MassNode) (name : String) :
    ∀ l : List ℕ, 0 ≤ section_idx_scan node name l →
      ∃ i ∈ l, section_idx_scan node name l = (i : ℤ) := by
  intro l
  induction l with
  | nil => intro h; simp [section_idx_scan] at h
  | cons i l ih =>
    intro h
    by_cases hc : sectionIdentifierAt node (i : ℤ) = some name
    · exact ⟨i, List.mem_cons_self _ _, by rw [section_idx_scan, if_pos hc]⟩
    · rw [section_idx_scan, if_neg hc] at h
      rcases ih h with ⟨a, ha, heq⟩
      exact ⟨a, List.mem_cons_of_mem _ ha, by rw [section_idx_scan, if_neg hc, heq]⟩

theorem get_section_idx_nonneg_mem (node : MassNode) (name : String)
    (h : 0 ≤ get_section_idx_from_name node name) :
    ∃ i ∈ used_section_indices node, get_section_idx_from_name node name = (i : ℤ) :=
  section_idx_scan_nonneg_mem node name _ h

/-- A lookup at the index resolved on the tail node skips an unrelated head
slot. -/
theorem findIndexed_cons_skip (nm : String) (st : MassSettings) (i0 : ℕ)
    (s0 : MassSection) (rest : List (ℕ × MassSection)) (name : String)
    (h : ∀ p ∈ rest, p.1 ≠ i0) :
    findIndexed ((i0, s0) :: rest)
        (get_section_idx_from_name (MassNode.mk nm st rest) name) =
      findIndexed rest (get_section_idx_from_name (MassNode.mk nm st rest) name) := by
  by_cases hneg : get_section_idx_from_name (MassNode.mk nm st rest) name < 0
  · rw [findIndexed_neg _ _ hneg, findIndexed_neg _ _ hneg]
  · rcases get_section_idx_nonneg_mem (MassNode.mk nm st rest) name (by omega) with ⟨i, hi, heq⟩
    have hi2 : i ∈ rest.map Prod.fst := hi
    have hne : (i0 : ℤ) ≠ get_section_idx_from_name (MassNode.mk nm st rest) name := by
      rw [heq]
      rcases List.mem_map.mp hi2 with ⟨p, hp, rfl⟩
      have := h p hp
      omega
    exact findIndexed_cons_ne _ _ _ _ hne

theorem get_section_weight_cons (nm : String) (st : MassSettings) (i0 : ℕ)
    (s0 : MassSection) (rest : List (ℕ × MassSection)) (name : String)
    (h : ∀ p ∈ rest, p.1 ≠ i0) :
    get_section_weight (MassNode.mk nm st ((i0, s0) :: rest)) name =
      if s0.sectionIdentifier = name then s0.mass
      else get_section_weight (MassNode.mk nm st rest) name := by
  simp only [get_section_weight]
  rw [get_section_idx_from_name_cons nm st i0 s0 rest name h]
  by_cases hid : s0.sectionIdentifier = name
  · rw [if_pos hid, if_pos hid, if_neg (by omega : ¬ ((i0 : ℕ) : ℤ) < 0)]
    show (match findIndexed ((i0, s0) :: rest) ((i0 : ℕ) : ℤ) with
      | some p => p.2.mass
      | none => 0) = s0.mass
    rw [findIndexed_cons_self]
  · rw [if_neg hid, if_neg hid]
    by_cases hneg : get_section_idx_from_name (MassNode.mk nm st rest) name < 0
    · rw [if_pos hneg, if_pos hneg]
    · rw [if_neg hneg, if_neg hneg]
      show (match findIndexed ((i0, s0) :: rest) _ with
        | some p => p.2.mass
        | none => 0) = (match findIndexed rest _ with
        | some p => p.2.mass
        | none => 0)
      rw [findIndexed_cons_skip nm st i0 s0 rest name h]

theorem get_section_influences_cons (nm : String) (st : MassSettings) (i0 : ℕ)
    (s0 : MassSection) (rest : List (ℕ × MassSection)) (name : String)
    (h : ∀ p ∈ rest, p.1 ≠ i0) :
    get_section_influences (MassNode.mk nm st ((i0, s0) :: rest)) name =
      if s0.sectionIdentifier = name then
        (s0.pointsOfBounds.map Prod.fst).filterMap
          (fun k => (s0.pointsOfBounds.find? (fun q => q.1 == k)).map Prod.snd)
      else get_section_influences (MassNode.mk nm st rest) name := by
  simp only [get_section_influences]
  rw [get_section_idx_from_name_cons nm st i0 s0 rest name h]
  by_cases hid : s0.sectionIdentifier = name
  · rw [if_pos hid, if_pos hid]
    have hused : get_used_influence_indices (MassNode.mk nm st ((i0, s0) :: rest))
        ((i0 : ℕ) : ℤ) = s0.pointsOfBounds.map Prod.fst := by
      show (match findIndexed ((i0, s0) :: rest) ((i0 : ℕ) : ℤ) with
        | none => []
        | some p => p.2.pointsOfBounds.map Prod.fst) = _
      rw [findIndexed_cons_self]
    have hatt : ∀ k ∈ s0.pointsOfBounds.map Prod.fst,
        influenceAt (MassNode.mk nm st ((i0, s0) :: rest)) ((i0 : ℕ) : ℤ) k =
          (s0.pointsOfBounds.find? (fun q => q.1 == k)).map Prod.snd := by
      intro k _
      show (findIndexed ((i0, s0) :: rest) ((i0 : ℕ) : ℤ)).bind _ = _
      rw [findIndexed_cons_self]
      rfl
    rw [hused]
    exact List.filterMap_congr hatt
  · rw [if_neg hid, if_neg hid]
    have hused : get_used_influence_indices (MassNode.mk nm st ((i0, s0) :: rest))
        (get_section_idx_from_name (MassNode.mk nm st rest) name) =
        get_used_influence_indices (MassNode.mk nm st rest)
          (get_section_idx_from_name (MassNode.mk nm st rest) name) := by
      show (match findIndexed ((i0, s0) :: rest) _ with
        | none => []
        | some p => p.2.pointsOfBounds.map Prod.fst) = (match findIndexed rest _ with
        | none => []
        | some p => p.2.pointsOfBounds.map Prod.fst)
      rw [findIndexed_cons_skip nm st i0 s0 rest name h]
    have hatt : ∀ k ∈ get_used_influence_indices (MassNode.mk nm st rest)
        (get_section_idx_from_name (MassNode.mk nm st rest) name),
        influenceAt (MassNode.mk nm st ((i0, s0) :: rest))
            (get_section_idx_from_name (MassNode.mk nm st rest) name) k =
          influenceAt (MassNode.mk nm st rest)
            (get_section_idx_from_name (MassNode.mk nm st rest) name) k := by
      intro k _
      show (findIndexed ((i0, s0) :: rest) _).bind _ = (findIndexed rest _).bind _
      rw [findIndexed_cons_skip nm st i0 s0 rest name h]
    rw [hused]
    exact List.filterMap_congr hatt

theorem get_section_names_cons (nm : String) (st : MassSettings) (i0 : ℕ)
    (s0 : MassSection) (rest : List (ℕ × MassSection))
    (h : ∀ p ∈ rest, p.1 ≠ i0) :
    get_section_names (MassNode.mk nm st ((i0, s0) :: rest)) =
      s0.sectionIdentifier :: get_section_names (MassNode.mk nm st rest) := by
  show List.filterMap (get_name_from_section_idx (MassNode.mk nm st ((i0, s0) :: rest)))
      (i0 :: rest.map Prod.fst) = _
  have hhead : get_name_from_section_idx (MassNode.mk nm st ((i0, s0) :: rest)) i0 =
      some s0.sectionIdentifier := by
    unfold get_name_from_section_idx
    rw [if_pos (show i0 ∈ used_section_indices (MassNode.mk nm st ((i0, s0) :: rest)) from
      List.mem_cons_self _ _)]
    exact sectionIdentifierAt_cons_self nm st i0 s0 rest
  rw [List.filterMap_cons_some hhead]
  have htail : List.filterMap
      (get_name_from_section_idx (MassNode.mk nm st ((i0, s0) :: rest))) (rest.map Prod.fst) =
      List.filterMap (get_name_from_section_idx (MassNode.mk nm st rest)) (rest.map Prod.fst) := by
    apply List.filterMap_congr
    intro i hi
    have hne : i ≠ i0 := by
      rcases List.mem_map.mp hi with ⟨p, hp, rfl⟩
      exact h p hp
    unfold get_name_from_section_idx
    rw [if_pos (show i ∈ used_section_indices (MassNode.mk nm st ((i0, s0) :: rest)) from
        List.mem_cons_of_mem _ hi),
      if_pos (show i ∈ used_section_indices (MassNode.mk nm st rest) from hi)]
    show (findIndexed ((i0, s0) :: rest) (i : ℤ)).map _ = _
    rw [findIndexed_cons_ne _ _ _ _ (by omega : (i0 : ℤ) ≠ (i : ℤ))]
    rfl
  rw [htail]
  rfl

/-- Every section name of a node is the identifier of one of its slots. -/
theorem mem_get_section_names (node : MassNode) (n : String)
    (h : n ∈ get_section_names node) :
    n ∈ node.inputs.map (fun p => p.2.sectionIdentifier) := by
  rcases List.mem_filterMap.mp h with ⟨i, _, hname⟩
  unfold get_name_from_section_idx at hname
  by_cases hmem : i ∈ used_section_indices node
  · rw [if_pos hmem] at hname
    rcases Option.map_eq_some'.mp hname with ⟨p, hp, hid⟩
    exact List.mem_map.mpr ⟨p, List.mem_of_find?_eq_some hp, hid⟩
  · rw [if_neg hmem] at hname
    exact Option.noConfusion hname

/-- Reading a section's used bound plugs back through find? returns the
connected influences in order, for unique bound indices. -/
theorem filterMap_find_bounds (bounds : List (ℕ × String))
    (h : (bounds.map Prod.fst).Nodup) :
    (bounds.map Prod.fst).filterMap
        (fun k => (bounds.find? (fun q => q.1 == k)).map Prod.snd) =
      bounds.map Prod.snd := by
  induction bounds with
  | nil => rfl
  | cons p rest ih =>
    simp only [List.map_cons] at h ⊢
    rcases List.nodup_cons.mp h with ⟨hp, hrest⟩
    have hhead : ((p :: rest).find? (fun q => q.1 == p.1)).map Prod.snd = some p.2 := by
      rw [List.find?_cons_of_pos _ (by simp)]
      rfl
    have htail : (rest.map Prod.fst).filterMap
        (fun k => ((p :: rest).find? (fun q => q.1 == k)).map Prod.snd) =
        (rest.map Prod.fst).filterMap
          (fun k => (rest.find? (fun q => q.1 == k)).map Prod.snd) := by
      apply List.filterMap_congr
      intro k hk
      have hne : (p.1 == k) = false := by
        have : p.1 ≠ k := fun he => hp (he ▸ hk)
        simpa using this
      rw [List.find?_cons_of_neg _ (by simp [hne])]
    rw [List.filterMap_cons, hhead]
    show p.2 :: List.filterMap _ (rest.map Prod.fst) = p.2 :: rest.map Prod.snd
    rw [htail, ih hrest]

end ConsLemmas

/-- Serialisation of a well-formed node (unique slot indices, unique
section names, unique bound indices per section) lists every slot's name,
weight and influences in slot order. -/
theorem serialise_sections_wf :
    ∀ (inputs : List (ℕ × MassSection)) (nm : String) (st : MassSettings),
      (inputs.map Prod.fst).Nodup →
      (inputs.map (fun p => p.2.sectionIdentifier)).Nodup →
      (∀ p ∈ inputs, (p.2.pointsOfBounds.map Prod.fst).Nodup) →
      (serialise (MassNode.mk nm st inputs)).sections = inputs.map sectionRecordOf := by
  intro inputs
  induction inputs with
  | nil => intro nm st _ _ _; rfl
  | cons q rest ih =>
    intro nm st hidx hids hbounds
    obtain ⟨i0, s0⟩ := q
    have hskip : ∀ p ∈ rest, p.1 ≠ i0 := by
      intro p hp he
      have h1 : i0 ∉ rest.map Prod.fst := (List.nodup_cons.mp (by simpa using hidx)).1
      exact h1 (he ▸ List.mem_map_of_mem Prod.fst hp)
    have hid0 : s0.sectionIdentifier ∉ rest.map (fun p => p.2.sectionIdentifier) :=
      (List.nodup_cons.mp (by simpa using hids)).1
    show (get_section_names (MassNode.mk nm st ((i0, s0) :: rest))).map _ = _
    rw [get_section_names_cons nm st i0 s0 rest hskip, List.map_cons]
    congr 1
    · show SectionData.mk s0.sectionIdentifier
          (get_section_weight (MassNode.mk nm st ((i0, s0) :: rest)) s0.sectionIdentifier)
          (get_section_influences (MassNode.mk nm st ((i0, s0) :: rest)) s0.sectionIdentifier) =
        sectionRecordOf (i0, s0)
      rw [get_section_weight_cons nm st i0 s0 rest _ hskip, if_pos rfl,
        get_section_influences_cons nm st i0 s0 rest _ hskip, if_pos rfl,
        filterMap_find_bounds _ (hbounds (i0, s0) (List.mem_cons_self _ _))]
      rfl
    · have hcong : ∀ n ∈ get_section_names (MassNode.mk nm st rest),
          (fun n => SectionData.mk n
            (get_section_weight (MassNode.mk nm st ((i0, s0) :: rest)) n)
            (get_section_influences (MassNode.mk nm st ((i0, s0) :: rest)) n)) n =
          (fun n => SectionData.mk n
            (get_section_weight (MassNode.mk nm st rest) n)
            (get_section_influences (MassNode.mk nm st rest) n)) n := by
        intro n hn
        have hne : s0.sectionIdentifier ≠ n := by
          intro he
          exact hid0 (he ▸ mem_get_section_names (MassNode.mk nm st rest) n hn)
        show SectionData.mk n _ _ = SectionData.mk n _ _
        rw [get_section_weight_cons nm st i0 s0 rest n hskip, if_neg hne,
          get_section_influences_cons nm st i0 s0 rest n hskip, if_neg hne]
      rw [List.map_congr_left hcong]
      exact ih nm st (List.nodup_cons.mp (by simpa using hidx)).2
        (List.nodup_cons.mp (by simpa using hids)).2
        (fun p hp => hbounds p (List.mem_cons_of_mem _ hp))

section BuildLemmas

/-- Index lookup on a dense node whose last section is the only one with
the requested name. -/
theorem get_section_idx_dense_last :
    ∀ (ts : List MassSection) (j : ℕ) (t : MassSection) (nm : String) (st : MassSettings)
      (name : String), t.sectionIdentifier = name →
      (∀ u ∈ ts, u.sectionIdentifier ≠ name) →
      get_section_idx_from_name (MassNode.mk nm st (denseFrom j (ts ++ [t]))) name =
        ((j + ts.length : ℕ) : ℤ) := by
  intro ts
  induction ts with
  | nil =>
    intro j t nm st name hid _
    show get_section_idx_from_name (MassNode.mk nm st ((j, t) :: denseFrom (j + 1) [])) name = _
    rw [get_section_idx_from_name_cons nm st j t _ name (by intro p hp; simp [denseFrom] at hp),
      if_pos hid]
    simp
  | cons u ts' ih =>
    intro j t nm st name hid hall
    have hskip : ∀ p ∈ denseFrom (j + 1) (ts' ++ [t]), p.1 ≠ j := by
      intro p hp
      have := (denseFrom_mem_fst _ (j + 1) p.1).mp (List.mem_map_of_mem Prod.fst hp)
      omega
    show get_section_idx_from_name
        (MassNode.mk nm st ((j, u) :: denseFrom (j + 1) (ts' ++ [t]))) name = _
    rw [get_section_idx_from_name_cons nm st j u _ name hskip,
      if_neg (hall u (List.mem_cons_self _ _)),
      ih (j + 1) t nm st name hid (fun v hv => hall v (List.mem_cons_of_mem _ hv))]
    have harith : j + 1 + ts'.length = j + (u :: ts').length := by
      simp only [List.length_cons]; omega
    rw [harith]

theorem isFreeSlot_skip_head (nm : String) (st : MassSettings) (i0 : ℕ) (s0 : MassSection)
    (rest : List (ℕ × MassSection)) (c : ℕ) (h : c ≠ i0) :
    isFreeSlot (MassNode.mk nm st ((i0, s0) :: rest)) c =
      isFreeSlot (MassNode.mk nm st rest) c := by
  unfold isFreeSlot
  have hsA : sectionIdentifierAt (MassNode.mk nm st ((i0, s0) :: rest)) (c : ℤ) =
      sectionIdentifierAt (MassNode.mk nm st rest) (c : ℤ) := by
    show (findIndexed ((i0, s0) :: rest) (c : ℤ)).map _ = _
    rw [findIndexed_cons_ne _ _ _ _ (by omega : (i0 : ℤ) ≠ (c : ℤ))]
    rfl
  rw [hsA]

theorem free_slot_scan_skip_head (nm : String) (st : MassSettings) (i0 : ℕ) (s0 : MassSection)
    (rest : List (ℕ × MassSection)) :
    ∀ (fuel c : ℕ), i0 < c →
      free_slot_scan (MassNode.mk nm st ((i0, s0) :: rest)) fuel c =
        free_slot_scan (MassNode.mk nm st rest) fuel c := by
  intro fuel
  induction fuel with
  | zero => intro c _; rfl
  | succ f ih =>
    intro c hc
    rw [free_slot_scan, free_slot_scan, isFreeSlot_skip_head nm st i0 s0 rest c (by omega)]
    by_cases hfree : isFreeSlot (MassNode.mk nm st rest) c
    · rw [if_pos hfree, if_pos hfree]
    · rw [if_neg hfree, if_neg hfree, ih (c + 1) (by omega)]

theorem free_slot_scan_dense :
    ∀ (ts : List MassSection) (j : ℕ) (nm : String) (st : MassSettings) (fuel : ℕ),
      (∀ u ∈ ts, u.sectionIdentifier ≠ "") → ts.length + 1 ≤ fuel →
      free_slot_scan (MassNode.mk nm st (denseFrom j ts)) fuel j = j + ts.length := by
  intro ts
  induction ts with
  | nil =>
    intro j nm st fuel _ hfuel
    cases fuel with
    | zero => exfalso; omega
    | succ f =>
      rw [free_slot_scan, if_pos (by rfl)]
      simp
  | cons u ts' ih =>
    intro j nm st fuel hids hfuel
    cases fuel with
    | zero => exfalso; simp only [List.length_cons] at hfuel; omega
    | succ f =>
      have hocc : isFreeSlot (MassNode.mk nm st (denseFrom j (u :: ts'))) j = false := by
        unfold isFreeSlot
        rw [show denseFrom j (u :: ts') = (j, u) :: denseFrom (j + 1) ts' from rfl,
          sectionIdentifierAt_cons_self nm st j u (denseFrom (j + 1) ts')]
        simpa using hids u (List.mem_cons_self _ _)
      rw [free_slot_scan, hocc, if_neg (by decide)]
      rw [show denseFrom j (u :: ts') = (j, u) :: denseFrom (j + 1) ts' from rfl,
        free_slot_scan_skip_head nm st j u (denseFrom (j + 1) ts') f (j + 1) (by omega),
        ih (j + 1) nm st f (fun v hv => hids v (List.mem_cons_of_mem _ hv))
          (by simp only [List.length_cons] at hfuel; omega)]
      simp only [List.length_cons]
      omega

theorem foldl_max_ge_dense {α : Type} :
    ∀ (ts : List α) (j a : ℕ), j ≤ a + 1 →
      j + ts.length ≤ ((denseFrom j ts).map Prod.fst).foldl max a + 1 := by
  intro ts
  induction ts with
  | nil => intro j a h; simpa using h
  | cons x rest ih =>
    intro j a h
    show j + (x :: rest).length ≤
      List.foldl max (max a j) ((denseFrom (j + 1) rest).map Prod.fst) + 1
    have := ih (j + 1) (max a j) (by omega)
    simp only [List.length_cons]
    omega

/-- core.py add_mass_group on a node with consecutively indexed,
nonempty-named sections: a fresh slot is appended one past the last, with
the attribute defaults and the requested name. -/
theorem add_mass_group_dense (ts : List MassSection) (nm : String) (st : MassSettings)
    (name : String) (hids : ∀ u ∈ ts, u.sectionIdentifier ≠ "") :
    add_mass_group (MassNode.mk nm st (denseFrom 0 ts)) name =
      MassNode.mk nm st (denseFrom 0 (ts ++ [⟨name, 1, []⟩])) := by
  simp only [add_mass_group, initialise_mass_section]
  have hffs : first_free_section_slot (MassNode.mk nm st (denseFrom 0 ts)) = ts.length := by
    show free_slot_scan (MassNode.mk nm st (denseFrom 0 ts))
        (((denseFrom 0 ts).map Prod.fst).foldl max 0 + 2) 0 = ts.length
    have hzero := free_slot_scan_dense ts 0 nm st
      (((denseFrom 0 ts).map Prod.fst).foldl max 0 + 2) hids
      (by have := foldl_max_ge_dense ts 0 0 (by omega); omega)
    simpa using hzero
  rw [hffs,
    findIndexed_denseFrom_none ts 0 (ts.length : ℤ) (by right; push_cast; omega)]
  have hins := insertIndexed_denseFrom_append (⟨name, 1, []⟩ : MassSection) ts 0
  rw [Nat.zero_add] at hins
  show MassNode.mk nm st (insertIndexed (denseFrom 0 ts) ts.length ⟨name, 1, []⟩) = _
  rw [hins]

theorem set_section_weight_dense_last (ts : List MassSection) (t : MassSection)
    (nm : String) (st : MassSettings) (name : String) (w : ℚ)
    (hid : t.sectionIdentifier = name) (hall : ∀ u ∈ ts, u.sectionIdentifier ≠ name) :
    set_section_weight (MassNode.mk nm st (denseFrom 0 (ts ++ [t]))) name w =
      MassNode.mk nm st (denseFrom 0 (ts ++ [{ t with mass := w }])) := by
  simp only [set_section_weight]
  rw [get_section_idx_dense_last ts 0 t nm st name hid hall,
    if_neg (by push_cast; omega : ¬ ((0 + ts.length : ℕ) : ℤ) < 0)]
  have hupd := updateIndexed_denseFrom_at t [] (fun s => { s with mass := w }) ts 0
  show MassNode.mk nm st
      (updateIndexed (denseFrom 0 (ts ++ t :: [])) ((0 + ts.length : ℕ) : ℤ)
        (fun s => { s with mass := w })) = _
  rw [hupd]

theorem unused_index_scan_range (n : ℕ) (used : List ℕ) (hmem : ∀ i, i ∈ used ↔ i < n) :
    ∀ (fuel c : ℕ), c ≤ n → n + 1 ≤ fuel + c → unused_index_scan used fuel c = n := by
  intro fuel
  induction fuel with
  | zero => intro c h1 h2; exfalso; omega
  | succ f ih =>
    intro c h1 h2
    rw [unused_index_scan]
    by_cases hc : c ∈ used
    · have hlt : c < n := (hmem c).mp hc
      rw [if_pos hc]
      exact ih (c + 1) (by omega) (by omega)
    · have hnl : ¬ c < n := fun hlt => hc ((hmem c).mpr hlt)
      rw [if_neg hc]
      omega

theorem first_unused_influence_dense (bs : List String) :
    first_unused_influence_index ((denseFrom 0 bs).map Prod.fst) = bs.length := by
  unfold first_unused_influence_index
  apply unused_index_scan_range bs.length _
    (fun i => by rw [denseFrom_mem_fst]; omega) _ 0 (by omega)
  have := foldl_max_ge_dense bs 0 0 (by omega)
  omega

/-- core.py add_section_influence on a dense node whose last section is the
only one with the requested name and has densely indexed bounds: the
influence is connected at the next bound index. -/
theorem add_section_influence_dense_last (scene : List String) (ts : List MassSection)
    (nm : String) (st : MassSettings) (name : String) (w : ℚ) (bs : List String)
    (influence : String) (hscene : influence ∈ scene)
    (hall : ∀ u ∈ ts, u.sectionIdentifier ≠ name) :
    add_section_influence scene
        (MassNode.mk nm st (denseFrom 0 (ts ++ [⟨name, w, denseFrom 0 bs⟩]))) name influence =
      MassNode.mk nm st (denseFrom 0 (ts ++ [⟨name, w, denseFrom 0 (bs ++ [influence])⟩])) := by
  simp only [add_section_influence]
  rw [if_pos hscene,
    get_section_idx_dense_last ts 0 ⟨name, w, denseFrom 0 bs⟩ nm st name rfl hall,
    if_neg (by push_cast; omega : ¬ ((0 + ts.length : ℕ) : ℤ) < 0)]
  have hfind := findIndexed_denseFrom_at (⟨name, w, denseFrom 0 bs⟩ : MassSection) [] ts 0
  have hused : get_used_influence_indices
      (MassNode.mk nm st (denseFrom 0 (ts ++ [⟨name, w, denseFrom 0 bs⟩])))
      ((0 + ts.length : ℕ) : ℤ) = (denseFrom 0 bs).map Prod.fst := by
    show (match findIndexed (denseFrom 0 (ts ++ ⟨name, w, denseFrom 0 bs⟩ :: []))
        ((0 + ts.length : ℕ) : ℤ) with
      | none => []
      | some p => p.2.pointsOfBounds.map Prod.fst) = _
    rw [hfind]
  rw [hused, first_unused_influence_dense bs]
  have hupd := updateIndexed_denseFrom_at (⟨name, w, denseFrom 0 bs⟩ : MassSection) []
    (fun s => { s with pointsOfBounds := insertIndexed s.pointsOfBounds bs.length influence })
    ts 0
  show MassNode.mk nm st
      (updateIndexed (denseFrom 0 (ts ++ ⟨name, w, denseFrom 0 bs⟩ :: []))
        ((0 + ts.length : ℕ) : ℤ)
        (fun s => { s with pointsOfBounds := insertIndexed s.pointsOfBounds bs.length influence })) =
    _
  rw [hupd]
  have hins := insertIndexed_denseFrom_append influence bs 0
  rw [Nat.zero_add] at hins
  show MassNode.mk nm st
      (denseFrom 0 (ts ++ ⟨name, w, insertIndexed (denseFrom 0 bs) bs.length influence⟩ :: [])) =
    _
  rw [hins]

/-- The influence loop of deserialise adds each resolvable influence to the
last section's bound plugs in order. -/
theorem deserialise_influences_dense (scene : List String) :
    ∀ (infl bs : List String) (ts : List MassSection) (nm : String) (st : MassSettings)
      (name : String) (w : ℚ),
      (∀ u ∈ ts, u.sectionIdentifier ≠ name) →
      (∀ i ∈ infl, i ∈ scene) →
      infl.foldl (fun m influence => deserialise_influence scene m name influence)
          (MassNode.mk nm st (denseFrom 0 (ts ++ [⟨name, w, denseFrom 0 bs⟩]))) =
        MassNode.mk nm st (denseFrom 0 (ts ++ [⟨name, w, denseFrom 0 (bs ++ infl)⟩])) := by
  intro infl
  induction infl with
  | nil => intro bs ts nm st name w _ _; simp
  | cons i rest ih =>
    intro bs ts nm st name w hall hsc
    have hi : i ∈ scene := hsc i (List.mem_cons_self _ _)
    rw [List.foldl_cons]
    have hstep : deserialise_influence scene
        (MassNode.mk nm st (denseFrom 0 (ts ++ [⟨name, w, denseFrom 0 bs⟩]))) name i =
        MassNode.mk nm st (denseFrom 0 (ts ++ [⟨name, w, denseFrom 0 (bs ++ [i])⟩])) := by
      unfold deserialise_influence resolve_influence
      rw [if_pos hi]
      exact add_section_influence_dense_last scene ts nm st name w bs i hi hall
    rw [hstep,
      ih (bs ++ [i]) ts nm st name w hall (fun a ha => hsc a (List.mem_cons_of_mem _ ha))]
    simp [List.append_assoc]

/-- The section loop of deserialise appends one fresh, densely indexed slot
per stored section, carrying its name, weight and influences. -/
theorem deserialise_sections_dense (scene : List String) :
    ∀ (ss : List SectionData) (ts : List MassSection) (nm : String) (st : MassSettings),
      ((ts.map (fun t => t.sectionIdentifier)) ++ (ss.map (fun s => s.name))).Nodup →
      (∀ t ∈ ts, t.sectionIdentifier ≠ "") →
      (∀ s ∈ ss, s.name ≠ "") →
      (∀ s ∈ ss, ∀ i ∈ s.influences, i ∈ scene) →
      ss.foldl (deserialise_section scene) (MassNode.mk nm st (denseFrom 0 ts)) =
        MassNode.mk nm st (denseFrom 0 (ts ++ ss.map sectionOfData)) := by
  intro ss
  induction ss with
  | nil => intro ts nm st _ _ _ _; simp
  | cons d rest ih =>
    intro ts nm st hnodup hts hss hinf
    rw [List.foldl_cons]
    have hfresh : ∀ u ∈ ts, u.sectionIdentifier ≠ d.name := by
      intro u hu he
      have hdisj := (List.nodup_append.mp hnodup).2.2
      exact hdisj (List.mem_map_of_mem _ hu)
        (he ▸ List.mem_map_of_mem _ (List.mem_cons_self d rest) : u.sectionIdentifier ∈ _)
    have hstep : deserialise_section scene (MassNode.mk nm st (denseFrom 0 ts)) d =
        MassNode.mk nm st (denseFrom 0 (ts ++ [sectionOfData d])) := by
      simp only [deserialise_section]
      rw [add_mass_group_dense ts nm st d.name hts,
        set_section_weight_dense_last ts ⟨d.name, 1, []⟩ nm st d.name d.weight rfl hfresh]
      exact deserialise_influences_dense scene d.influences [] ts nm st d.name d.weight
        hfresh (hinf d (List.mem_cons_self _ _))
    have hnodup2 : (((ts ++ [sectionOfData d]).map (fun t => t.sectionIdentifier)) ++
        (rest.map (fun s => s.name))).Nodup := by
      simpa [sectionOfData, List.append_assoc] using hnodup
    have hts2 : ∀ t ∈ ts ++ [sectionOfData d], t.sectionIdentifier ≠ "" := by
      intro t ht
      rcases List.mem_append.mp ht with h | h
      · exact hts t h
      · rw [List.mem_singleton.mp h]
        exact hss d (List.mem_cons_self _ _)
    rw [hstep,
      ih (ts ++ [sectionOfData d]) nm st hnodup2 hts2
        (fun s hs => hss s (List.mem_cons_of_mem _ hs))
        (fun s hs => hinf s (List.mem_cons_of_mem _ hs))]
    simp [List.append_assoc]

theorem denseFrom_map_sectionIdentifier (l : List MassSection) :
    ∀ j, (denseFrom j l).map (fun p => p.2.sectionIdentifier) =
      l.map (fun t => t.sectionIdentifier) := by
  induction l with
  | nil => intro j; rfl
  | cons x rest ih => intro j; simp [denseFrom, ih]

end BuildLemmas

/-- C7 counterexample: a node carrying a section named by the empty string
followed by a section named a breaks the round trip — rebuilding finds the
empty identifier falsy and overwrites that slot, so the second serialise
has one section where the first had two.  Both sections are influence-free,
so every stored influence identifier resolves by exact name vacuously. -/
theorem roundtrip_drops_empty_named_section :
    (serialise (deserialise []
        (serialise (MassNode.mk "mSettings" ⟨true, true, true, true, 10⟩
          [(0, ⟨"", 2, []⟩), (1, ⟨"a", 3, []⟩)])))).sections ≠
      (serialise (MassNode.mk "mSettings" ⟨true, true, true, true, 10⟩
        [(0, ⟨"", 2, []⟩), (1, ⟨"a", 3, []⟩)])).sections := by
  decide

/-- C7 amended: for every mass node whose section names are pairwise
distinct (the spec's own uniqueness invariant) and nonempty, and whose
stored influence identifiers all resolve by exact name in the scene,
serialising, deserialising the result, and serialising the new node yields
identical sections, weights and influences. -/
theorem serialise_roundtrip (node : MassNode) (scene : List String)
    (h1 : (get_section_names node).Nodup)
    (h2 : "" ∉ get_section_names node)
    (h3 : ∀ n ∈ get_section_names node, ∀ i ∈ get_section_influences node n, i ∈ scene) :
    (serialise (deserialise scene (serialise node))).sections = (serialise node).sections := by
  have hnames : (serialise node).sections.map (fun s => s.name) = get_section_names node := by
    show ((get_section_names node).map _).map _ = _
    rw [List.map_map]
    exact List.map_id _
  have hB : ∀ s ∈ (serialise node).sections, s.name ≠ "" := by
    intro s hs he
    apply h2
    rw [← hnames]
    exact he ▸ List.mem_map_of_mem _ hs
  have hD : ∀ s ∈ (serialise node).sections, ∀ i ∈ s.influences, i ∈ scene := by
    intro s hs
    rcases List.mem_map.mp hs with ⟨n, hn, rfl⟩
    exact h3 n hn
  have hA : ((([] : List MassSection).map (fun t => t.sectionIdentifier)) ++
      ((serialise node).sections.map (fun s => s.name))).Nodup := by
    simpa [hnames] using h1
  have hbuild := deserialise_sections_dense scene (serialise node).sections []
    ((serialise node).name ++ "Settings") (serialise node).settings hA
    (by intro t ht; exact absurd ht (List.not_mem_nil t)) hB hD
  have hdes : deserialise scene (serialise node) =
      MassNode.mk ((serialise node).name ++ "Settings") (serialise node).settings
        (denseFrom 0 ((serialise node).sections.map sectionOfData)) := by
    show (serialise node).sections.foldl (deserialise_section scene)
        (MassNode.mk ((serialise node).name ++ "Settings") (serialise node).settings
          (denseFrom 0 [])) = _
    rw [hbuild, List.nil_append]
  have hids : ((denseFrom 0 ((serialise node).sections.map sectionOfData)).map
      (fun p => p.2.sectionIdentifier)).Nodup := by
    rw [denseFrom_map_sectionIdentifier, List.map_map]
    show (((serialise node).sections).map (fun s => s.name)).Nodup
    rw [hnames]
    exact h1
  have hbounds : ∀ p ∈ denseFrom 0 ((serialise node).sections.map sectionOfData),
      (p.2.pointsOfBounds.map Prod.fst).Nodup := by
    intro p hp
    have h := List.mem_map_of_mem Prod.snd hp
    rw [denseFrom_map_snd] at h
    rcases List.mem_map.mp h with ⟨d, _, heq⟩
    rw [← heq]
    show (((denseFrom 0 d.influences) : List (ℕ × String)).map Prod.fst).Nodup
    exact denseFrom_fst_nodup _ 0
  have hser := serialise_sections_wf
    (denseFrom 0 ((serialise node).sections.map sectionOfData))
    ((serialise node).name ++ "Settings") (serialise node).settings
    (denseFrom_fst_nodup _ 0) hids hbounds
  have hfinal : (denseFrom 0 ((serialise node).sections.map sectionOfData)).map
      sectionRecordOf = (serialise node).sections := by
    rw [show sectionRecordOf = ((fun s : MassSection =>
        SectionData.mk s.sectionIdentifier s.mass (s.pointsOfBounds.map Prod.snd)) ∘
        Prod.snd) from rfl, ← List.map_map, denseFrom_map_snd, List.map_map]
    have hpt : ∀ d ∈ (serialise node).sections,
        ((fun s : MassSection =>
          SectionData.mk s.sectionIdentifier s.mass (s.pointsOfBounds.map Prod.snd)) ∘
          sectionOfData) d = id d := by
      intro d _
      show SectionData.mk d.name d.weight ((denseFrom 0 d.influences).map Prod.snd) = d
      rw [denseFrom_map_snd]
    exact (List.map_congr_left hpt).trans (List.map_id _)
  rw [hdes, hser, hfinal]

/-- Witness for the amended C7 at a concrete two-section node whose
influence j1 exists in the scene. -/
theorem serialise_roundtrip_witness :
    (get_section_names (MassNode.mk "mSettings" ⟨true, true, true, true, 10⟩
        [(0, ⟨"torso", 2, [(0, "j1")]⟩), (2, ⟨"legs", 3, []⟩)])).Nodup ∧
    "" ∉ get_section_names (MassNode.mk "mSettings" ⟨true, true, true, true, 10⟩
        [(0, ⟨"torso", 2, [(0, "j1")]⟩), (2, ⟨"legs", 3, []⟩)]) ∧
    (∀ n ∈ get_section_names (MassNode.mk "mSettings" ⟨true, true, true, true, 10⟩
        [(0, ⟨"torso", 2, [(0, "j1")]⟩), (2, ⟨"legs", 3, []⟩)]),
      ∀ i ∈ get_section_influences (MassNode.mk "mSettings" ⟨true, true, true, true, 10⟩
        [(0, ⟨"torso", 2, [(0, "j1")]⟩), (2, ⟨"legs", 3, []⟩)]) n, i ∈ ["j1"]) ∧
    (serialise (deserialise ["j1"]
        (serialise (MassNode.mk "mSettings" ⟨true, true, true, true, 10⟩
          [(0, ⟨"torso", 2, [(0, "j1")]⟩), (2, ⟨"legs", 3, []⟩)])))).sections =
      (serialise (MassNode.mk "mSettings" ⟨true, true, true, true, 10⟩
        [(0, ⟨"torso", 2, [(0, "j1")]⟩), (2, ⟨"legs", 3, []⟩)])).sections :=
  ⟨by decide, by decide, by decide,
    serialise_roundtrip _ _ (by decide) (by decide) (by decide)⟩

end Massimo
